import Mathlib

/-!
Shallow embedding of the cross-sectional mean-reversion strategy from
`src/notebooks/cross-sectional-mean-reversion-strategy-in-python-with-backtrader.ipynb`
(class `CrossSectionalMR`, method `next`), with the data-feed access modelled
over exact rationals in place of IEEE doubles.

The Python core is:

    available = list(filter(lambda d: len(d), self.datas))
    rets = np.zeros(len(available))
    for i, d in enumerate(available):
        rets[i] = (d.close[0] - d.close[-1]) / d.close[-1]
    market_ret = np.mean(rets)
    weights = -(rets - market_ret)
    weights = weights / np.sum(np.abs(weights))
    for i, d in enumerate(available):
        self.order_target_percent(d, target=weights[i])

A data feed on a given day is modelled as the list of closing prices it has
delivered so far, oldest first, so `len(d)` is the list length, `d.close[0]`
is the last element and `d.close[-1]` the element before it.
-/

namespace CrossSectionalMR

/-- SimError enumerates the failure modes relevant to one simulation step:
`zeroDivision` is the Python `ZeroDivisionError` raised by
`(d.close[0] - d.close[-1]) / d.close[-1]` when the prior close is `0`
(the CSV loader maps null cells to prices of `0.0` via `nullvalue=0.0`);
`zeroEquity` stands for the spec's `ZeroEquityError`, which no code path
produces. -/
inductive SimError where
  | zeroDivision : SimError
  | zeroEquity : SimError
deriving DecidableEq

/-- closeToday is `d.close[0]`: the last price the feed has delivered. -/
def closeToday (f : List ℚ) : Option ℚ :=
  f[f.length - 1]?

/-- closePrevBar is `d.close[-1]`: the line-buffer element at index `idx - 1`.
For a feed that has delivered a single bar the Python array index `-1` wraps
around to that same bar (and under full preloading it can even reach a bar
not yet delivered); `f[f.length - 2]?` reproduces the single-bar wrap, since
truncated Nat subtraction gives index `0` there. -/
def closePrevBar (f : List ℚ) : Option ℚ :=
  f[f.length - 2]?

/-- retOf is one iteration of the rets loop:
`rets[i] = (d.close[0] - d.close[-1]) / d.close[-1]`, raising
`ZeroDivisionError` when the divisor is `0` (Python floats raise, unlike
numpy arrays). The fallback branch is unreachable for the feeds the strategy
passes in, because `available` keeps only nonempty feeds. -/
def retOf (f : List ℚ) : Except SimError ℚ :=
  match closeToday f, closePrevBar f with
  | some c0, some cp => if cp = 0 then .error .zeroDivision else .ok ((c0 - cp) / cp)
  | _, _ => .error .zeroDivision

/-- collectRets runs the rets loop over the available feeds in order; the
first raised exception aborts the whole loop, as in Python. -/
def collectRets : List (List ℚ) → Except SimError (List ℚ)
  | [] => .ok []
  | f :: fs =>
    match retOf f with
    | .error e => .error e
    | .ok r =>
      match collectRets fs with
      | .error e => .error e
      | .ok rs => .ok (r :: rs)

/-- availableIdx is `filter(lambda d: len(d), self.datas)`, tracked by feed
position: the indices of the feeds that have delivered at least one bar
(Python truthiness of `len(d)`). -/
def availableIdx (feeds : List (List ℚ)) : List Nat :=
  (List.range feeds.length).filter (fun j => (feeds.getD j []).length != 0)

/-- retsOf computes the day's `rets` array: the per-feed returns of the
available feeds, in feed order. -/
def retsOf (feeds : List (List ℚ)) : Except SimError (List ℚ) :=
  collectRets ((availableIdx feeds).map (fun j => feeds.getD j []))

/-- marketRet is `market_ret = np.mean(rets)` for the arrays the strategy
builds (`np.mean` of an empty array is NaN, but an empty day issues no
orders either way, so the convention `0 / 0 = 0` below is unobservable). -/
def marketRet (rets : List ℚ) : ℚ :=
  rets.sum / rets.length

/-- rawWeights is `weights = -(rets - market_ret)`. -/
def rawWeights (rets : List ℚ) : List ℚ :=
  rets.map (fun r => -(r - marketRet rets))

/-- absSum is `np.sum(np.abs(xs))`. -/
def absSum (xs : List ℚ) : ℚ :=
  (xs.map (fun x => |x|)).sum

/-- denom is the normalizer `np.sum(np.abs(weights))` applied to the raw
weights. -/
def denom (rets : List ℚ) : ℚ :=
  absSum (rawWeights rets)

/-- weights is `weights = weights / np.sum(np.abs(weights))`, elementwise
over IEEE doubles. When the normalizer is `0` every raw weight is itself `0`
(a sum of absolute values vanishes only if each term does, see
`rawWeights_eq_zero_of_denom_eq_zero`), so numpy computes `0.0 / 0.0 = NaN`
for every entry; `none` models NaN. Otherwise each entry is the ordinary
quotient. -/
def weights (rets : List ℚ) : List (Option ℚ) :=
  if denom rets = 0 then (rawWeights rets).map (fun _ => none)
  else (rawWeights rets).map (fun s => some (s / denom rets))

/-- nextOrders is the observable outcome of one `next()` call: the
`order_target_percent(d, target=weights[i])` instructions, as (feed index,
target weight) pairs over the available feeds, or the exception that aborted
the rets loop. Feeds outside `available` get no order. -/
def nextOrders (feeds : List (List ℚ)) : Except SimError (List (Nat × Option ℚ)) :=
  match retsOf feeds with
  | .error e => .error e
  | .ok rets => .ok ((availableIdx feeds).zip (weights rets))

/-- Modelled from the spec: total portfolio equity, `cash + sum(quantity_i *
close_i)` over held positions (spec §3, Portfolio). The source delegates
equity tracking to the backtesting library's broker, which is outside this
repository; the definition is needed only to state equity-related claims. -/
def equity (cash : ℚ) (qtys closes : List ℚ) : ℚ :=
  cash + ((qtys.zip closes).map (fun p => p.1 * p.2)).sum

/-! Helper lemmas about list sums. -/

lemma sum_map_div (l : List ℚ) (d : ℚ) :
    (l.map (fun x => x / d)).sum = l.sum / d := by
  induction l with
  | nil => simp
  | cons a t ih => simp [ih, add_div]

lemma sum_map_add_const (l : List ℚ) (c : ℚ) :
    (l.map (fun x => x + c)).sum = l.sum + l.length * c := by
  induction l with
  | nil => simp
  | cons a t ih =>
    simp only [List.map_cons, List.sum_cons, ih, List.length_cons]
    push_cast
    ring

lemma sum_map_const_sub (l : List ℚ) (m : ℚ) :
    (l.map (fun x => m - x)).sum = l.length * m - l.sum := by
  induction l with
  | nil => simp
  | cons a t ih =>
    simp only [List.map_cons, List.sum_cons, ih, List.length_cons]
    push_cast
    ring

lemma absSum_nonneg (l : List ℚ) : 0 ≤ absSum l := by
  unfold absSum
  induction l with
  | nil => simp
  | cons a t ih => simpa using add_nonneg (abs_nonneg a) ih

lemma eq_zero_of_absSum_eq_zero (l : List ℚ) (h : absSum l = 0) :
    ∀ x ∈ l, x = 0 := by
  induction l with
  | nil => simp
  | cons a t ih =>
    have hsplit : |a| + absSum t = 0 := by simpa [absSum] using h
    have ht : absSum t = 0 := by
      have := abs_nonneg a
      have := absSum_nonneg t
      linarith
    have ha : a = 0 := by
      have : |a| = 0 := by linarith [absSum_nonneg t]
      exact abs_eq_zero.mp this
    intro x hx
    rcases List.mem_cons.mp hx with hxa | hxt
    · exact hxa.trans ha
    · exact ih ht x hxt

/-! Helper lemmas about the weighting pipeline. -/

lemma rawWeights_eq_zero_of_denom_eq_zero (rets : List ℚ) (h : denom rets = 0) :
    ∀ s ∈ rawWeights rets, s = 0 :=
  eq_zero_of_absSum_eq_zero _ h

lemma eq_marketRet_of_denom_eq_zero (rets : List ℚ) (h : denom rets = 0) :
    ∀ r ∈ rets, r = marketRet rets := by
  intro r hr
  have hs := rawWeights_eq_zero_of_denom_eq_zero rets h
    (-(r - marketRet rets)) (List.mem_map_of_mem _ hr)
  linarith [hs]

lemma denom_ne_zero_of_ne {rets : List ℚ} {a b : ℚ}
    (ha : a ∈ rets) (hb : b ∈ rets) (hab : a ≠ b) : denom rets ≠ 0 := by
  intro h
  exact hab (((eq_marketRet_of_denom_eq_zero rets h) a ha).trans
    (((eq_marketRet_of_denom_eq_zero rets h) b hb).symm))

lemma ne_nil_of_denom_ne_zero {rets : List ℚ} (hd : denom rets ≠ 0) :
    rets ≠ [] := by
  rintro rfl
  exact hd rfl

lemma denom_pos {rets : List ℚ} (hd : denom rets ≠ 0) : 0 < denom rets :=
  lt_of_le_of_ne (absSum_nonneg _) (Ne.symm hd)

lemma weights_of_denom_ne_zero {rets : List ℚ} (hd : denom rets ≠ 0) :
    weights rets = (rawWeights rets).map (fun s => some (s / denom rets)) := by
  rw [weights, if_neg hd]

lemma weights_eq_nan_of_denom_eq_zero {rets : List ℚ} (h : denom rets = 0) :
    weights rets = rets.map (fun _ => none) := by
  rw [weights, if_pos h, rawWeights, List.map_map]
  rfl

lemma rawWeights_sum (rets : List ℚ) (h : rets ≠ []) :
    (rawWeights rets).sum = 0 := by
  have hn : (rets.length : ℚ) ≠ 0 := by
    have := List.length_pos.mpr h
    positivity
  have hrw : rawWeights rets = rets.map (fun r => marketRet rets - r) := by
    unfold rawWeights
    exact List.map_congr_left (fun r _ => by ring)
  rw [hrw, sum_map_const_sub, marketRet]
  field_simp

lemma marketRet_shift (rets : List ℚ) (c : ℚ) (h : rets ≠ []) :
    marketRet (rets.map (fun r => r + c)) = marketRet rets + c := by
  have hn : (rets.length : ℚ) ≠ 0 := by
    have := List.length_pos.mpr h
    positivity
  unfold marketRet
  rw [sum_map_add_const, List.length_map, add_div,
    mul_div_cancel_left₀ c hn]

lemma rawWeights_shift (rets : List ℚ) (c : ℚ) (h : rets ≠ []) :
    rawWeights (rets.map (fun r => r + c)) = rawWeights rets := by
  unfold rawWeights
  rw [marketRet_shift rets c h, List.map_map]
  exact List.map_congr_left (fun r _ => by simp only [Function.comp]; ring)

/-! Helper lemmas locating the last two closes of a feed, and evaluations at
the concrete inputs the claims use. -/

lemma closeToday_append (pre : List ℚ) (c1 c0 : ℚ) :
    closeToday (pre ++ [c1, c0]) = some c0 := by
  unfold closeToday
  rw [List.length_append]
  simp only [List.length_cons, List.length_nil]
  rw [show pre.length + 2 - 1 = pre.length + 1 by omega,
    List.getElem?_append_right (by omega)]
  simp

lemma closePrevBar_append (pre : List ℚ) (c1 c0 : ℚ) :
    closePrevBar (pre ++ [c1, c0]) = some c1 := by
  unfold closePrevBar
  rw [List.length_append]
  simp only [List.length_cons, List.length_nil]
  rw [show pre.length + 2 - 2 = pre.length by omega,
    List.getElem?_append_right (by omega)]
  simp

lemma denom_two_val : denom [1/10, -1/10] = 1/5 := by
  norm_num [denom, absSum, rawWeights, marketRet]
  simp (disch := norm_num) only [abs_of_nonneg, abs_of_nonpos]
  norm_num

lemma denom_three_val : denom [2/5, 1/10, 1/10] = 2/5 := by
  norm_num [denom, absSum, rawWeights, marketRet]
  simp (disch := norm_num) only [abs_of_nonneg, abs_of_nonpos]
  norm_num

lemma retOf_error (f : List ℚ) (e : SimError) (h : retOf f = .error e) :
    e = SimError.zeroDivision := by
  unfold retOf at h
  cases hc : closeToday f with
  | none => simp [hc] at h; exact h.symm
  | some c0 =>
    cases hp : closePrevBar f with
    | none => simp [hc, hp] at h; exact h.symm
    | some cp =>
      simp only [hc, hp] at h
      by_cases hz : cp = 0
      · rw [if_pos hz] at h
        exact (Except.error.injEq _ _ |>.mp h).symm
      · rw [if_neg hz] at h
        exact absurd h (by simp)

lemma collectRets_error (l : List (List ℚ)) (e : SimError)
    (h : collectRets l = .error e) : e = SimError.zeroDivision := by
  induction l with
  | nil => simp [collectRets] at h
  | cons f fs ih =>
    unfold collectRets at h
    cases hr : retOf f with
    | error e2 =>
      rw [hr] at h
      have : e2 = e := by simpa using h
      exact this ▸ retOf_error f e2 hr
    | ok r =>
      rw [hr] at h
      cases hc : collectRets fs with
      | error e3 =>
        rw [hc] at h
        have he : e3 = e := by simpa using h
        exact ih (he ▸ hc)
      | ok rs =>
        rw [hc] at h
        simp at h

/-! The claims. -/

/-- C1: on a day whose normalizer is nonzero, the target weight at position
`i` of the rets array is `-(r_i - r_mean) / denom`; the order list pairs the
available feeds with exactly these weights; the per-instrument return the
code computes from a prior close `c1 ≠ 0` and a current close `c0` equals
`c0 / c1 - 1`; and a feed outside the available set receives no order at all
(the spec's weight-0 convention for ineligible instruments, which can hold
no position). -/
theorem c1_weight_rule :
    (∀ (rets : List ℚ) (i : Nat) (r : ℚ), denom rets ≠ 0 → rets[i]? = some r →
      (weights rets)[i]? = some (some (-(r - marketRet rets) / denom rets)))
  ∧ (∀ (feeds : List (List ℚ)) (rets : List ℚ), retsOf feeds = .ok rets →
      nextOrders feeds = .ok ((availableIdx feeds).zip (weights rets)))
  ∧ (∀ (pre : List ℚ) (c1 c0 : ℚ), c1 ≠ 0 →
      retOf (pre ++ [c1, c0]) = .ok (c0 / c1 - 1))
  ∧ (∀ (feeds : List (List ℚ)) (j : Nat) (os : List (Nat × Option ℚ))
      (t : Option ℚ), j ∉ availableIdx feeds → nextOrders feeds = .ok os →
      (j, t) ∉ os) := by
  refine ⟨?_, ?_, ?_, ?_⟩
  · intro rets i r hd hr
    rw [weights_of_denom_ne_zero hd, rawWeights, List.map_map,
      List.getElem?_map, hr]
    rfl
  · intro feeds rets h
    unfold nextOrders
    rw [h]
  · intro pre c1 c0 h
    simp only [retOf, closeToday_append, closePrevBar_append]
    rw [if_neg h, sub_div, div_self h]
  · intro feeds j os t hj ho hmem
    unfold nextOrders at ho
    cases hr : retsOf feeds with
    | error e => rw [hr] at ho; simp at ho
    | ok rets =>
      rw [hr] at ho
      have hos : os = (availableIdx feeds).zip (weights rets) := by
        simpa using ho.symm
      exact hj (List.of_mem_zip (hos ▸ hmem)).1

/-- Witness for C1 at the two-instrument example day. -/
theorem c1_weight_rule_witness :
    (weights [1/10, -1/10])[0]? =
      some (some (-((1:ℚ)/10 - marketRet [1/10, -1/10]) / denom [1/10, -1/10]))
  ∧ retOf ([] ++ [(100:ℚ), 110]) = .ok (110 / 100 - 1) :=
  ⟨c1_weight_rule.1 [1/10, -1/10] 0 (1/10)
      (by rw [denom_two_val]; norm_num) rfl,
    c1_weight_rule.2.2.1 [] 100 110 (by norm_num)⟩

/-- C2: on a day whose eligible returns are not all equal, the absolute
weights sum to exactly 1 (exactly over the rationals; the float run agrees
up to rounding). -/
theorem c2_abs_weights_sum_one (rets : List ℚ) (a b : ℚ)
    (ha : a ∈ rets) (hb : b ∈ rets) (hab : a ≠ b) :
    absSum ((weights rets).map (fun w => w.getD 0)) = 1 := by
  have hd := denom_ne_zero_of_ne ha hb hab
  have hpos := denom_pos hd
  have hval : (weights rets).map (fun w => w.getD 0) =
      (rawWeights rets).map (fun s => s / denom rets) := by
    rw [weights_of_denom_ne_zero hd, List.map_map]
    rfl
  rw [hval]
  unfold absSum
  rw [List.map_map]
  have hcomp : ((fun x : ℚ => |x|) ∘ (fun s : ℚ => s / denom rets)) =
      ((fun x => x / denom rets) ∘ (fun x : ℚ => |x|)) := by
    funext s
    simp [Function.comp, abs_div, abs_of_pos hpos]
  rw [hcomp, ← List.map_map, sum_map_div]
  exact div_self hd

/-- Witness for C2 at the two-instrument example day. -/
theorem c2_abs_weights_sum_one_witness :
    absSum ((weights [1/10, -1/10]).map (fun w => w.getD 0)) = 1 :=
  c2_abs_weights_sum_one [1/10, -1/10] (1/10) (-1/10)
    (by simp) (by simp) (by norm_num)

/-- C3 counterexample: on a day where both eligible returns are `0` the code
computes `0.0 / 0.0 = NaN` (modelled `none`) for each weight, not `0`: the
claim that every weight is set to `0` fails on the code. -/
theorem c3_counterexample :
    weights [(0:ℚ), 0] = [none, none]
  ∧ weights [(0:ℚ), 0] ≠ [some 0, some 0] := by
  have h1 : weights [(0:ℚ), 0] = [none, none] := by
    norm_num [weights, denom, absSum, rawWeights, marketRet]
  refine ⟨h1, ?_⟩
  rw [h1]
  simp

/-- C3 amended: when the normalizer is `0` (all eligible returns equal), the
unguarded division makes every weight NaN (`none`), one per eligible
instrument; no division-by-zero exception is raised (numpy division only
warns), so the computation is total but does not set weights to `0`. -/
theorem c3_zero_denom_gives_nan (rets : List ℚ) (h : denom rets = 0) :
    weights rets = rets.map (fun _ => none) :=
  weights_eq_nan_of_denom_eq_zero h

/-- Witness for C3 at a day whose two eligible returns are equal. -/
theorem c3_zero_denom_gives_nan_witness :
    weights [(5:ℚ), 5] = [(5:ℚ), 5].map (fun _ => none) :=
  c3_zero_denom_gives_nan [(5:ℚ), 5]
    (by norm_num [denom, absSum, rawWeights, marketRet])

/-- C4 counterexample: with a single eligible instrument the code computes
weight `0.0 / 0.0 = NaN` (modelled `none`), not `0`. -/
theorem c4_counterexample :
    weights [(1:ℚ)/10] = [none] ∧ weights [(1:ℚ)/10] ≠ [some 0] := by
  have h1 : weights [(1:ℚ)/10] = [none] := by
    norm_num [weights, denom, absSum, rawWeights, marketRet]
  refine ⟨h1, ?_⟩
  rw [h1]
  simp

/-- C4 amended: a universe of one eligible instrument always has
`r - r_mean = 0`, so the normalizer is `0` and the single weight is NaN
(`none`), not `0`; no division-by-zero exception interrupts the run (the
computation is total). -/
theorem c4_single_instrument_nan (r : ℚ) : weights [r] = [none] := by
  have h : denom [r] = 0 := by
    simp [denom, absSum, rawWeights, marketRet]
  rw [weights_eq_nan_of_denom_eq_zero h]
  rfl

/-- Witness for C4 at a concrete single-instrument day. -/
theorem c4_single_instrument_nan_witness : weights [(3:ℚ)] = [none] :=
  c4_single_instrument_nan 3

/-- C5: the eligibility filter keeps any feed with at least one delivered
bar, so instrument 0, whose first close `105` arrived on the current day and
which therefore has only one observation, is already included in `available`
alongside instrument 1 — and its `d.close[-1]` does not read a prior close
(none exists): the buffer index wraps to the current bar. The claim (and the
code's own comment, only look at data that existed yesterday) requires two
consecutive closes. -/
theorem c5_one_bar_feed_included :
    availableIdx [[105], [100, 110]] = [0, 1]
  ∧ closePrevBar [105] = closeToday [105] :=
  ⟨by decide, rfl⟩

/-- C6 counterexample: the return profile `[2/5, 1/10, 1/10]` has a nonzero
normalizer and is not symmetric around its mean (its deviation multiset is
not closed under negation), yet the weights sum to `0`, not to a nonzero
value: the scheme is dollar-neutral on exactly the kind of profile the claim
offers as a witness of non-neutrality. -/
theorem c6_counterexample :
    denom [2/5, 1/10, 1/10] ≠ 0
  ∧ ¬ (([2/5, 1/10, 1/10].map
        (fun r => r - marketRet [2/5, 1/10, 1/10])).Perm
      (([2/5, 1/10, 1/10].map
        (fun r => r - marketRet [2/5, 1/10, 1/10])).map (fun x => -x)))
  ∧ ((weights [2/5, 1/10, 1/10]).map (fun w => w.getD 0)).sum = 0 := by
  have hm : marketRet [2/5, 1/10, 1/10] = 1/5 := by
    norm_num [marketRet]
  refine ⟨by rw [denom_three_val]; norm_num, ?_, ?_⟩
  · intro hperm
    rw [hm] at hperm
    norm_num at hperm
    have hmem := hperm.mem_iff (a := (1:ℚ)/5)
    simp at hmem
    norm_num at hmem
  · norm_num [weights, denom, absSum, rawWeights, marketRet]
    simp (disch := norm_num) only [abs_of_nonneg, abs_of_nonpos]
    norm_num

/-- C6 amended: the scheme is dollar-neutral in exact arithmetic: whenever
the normalizer is nonzero, the weights over the eligible set sum to exactly
`0`, because the deviations from the cross-sectional mean sum to `0`; a
float run can differ from `0` only by accumulated rounding. -/
theorem c6_dollar_neutral (rets : List ℚ) (hd : denom rets ≠ 0) :
    ((weights rets).map (fun w => w.getD 0)).sum = 0 := by
  have hne := ne_nil_of_denom_ne_zero hd
  rw [weights_of_denom_ne_zero hd, List.map_map]
  have hcomp : ((fun w : Option ℚ => w.getD 0) ∘
      (fun s => some (s / denom rets))) = (fun s => s / denom rets) := by
    funext s
    rfl
  rw [hcomp, sum_map_div, rawWeights_sum rets hne, zero_div]

/-- Witness for C6 at the asymmetric three-instrument profile. -/
theorem c6_dollar_neutral_witness :
    ((weights [2/5, 1/10, 1/10]).map (fun w => w.getD 0)).sum = 0 :=
  c6_dollar_neutral [2/5, 1/10, 1/10] (by rw [denom_three_val]; norm_num)

/-- C7: the two-instrument example day: closes 100 → 110 and 100 → 90 give
returns `[1/10, -1/10]`, mean `0`, raw signals `[-1/10, 1/10]`, normalizer
`1/5`, and orders targeting `-1/2` of equity on instrument 0 and `1/2` on
instrument 1. -/
theorem c7_example_day :
    retsOf [[100, 110], [100, 90]] = .ok [1/10, -1/10]
  ∧ marketRet [1/10, -1/10] = 0
  ∧ rawWeights [1/10, -1/10] = [-(1:ℚ)/10, 1/10]
  ∧ denom [1/10, -1/10] = 1/5
  ∧ nextOrders [[100, 110], [100, 90]] =
      .ok [(0, some (-(1:ℚ)/2)), (1, some (1/2))] := by
  refine ⟨?_, ?_, ?_, denom_two_val, ?_⟩
  · norm_num [retsOf, availableIdx, collectRets, retOf, closeToday, closePrevBar]
  · norm_num [marketRet]
  · norm_num [rawWeights, marketRet]
  · norm_num [nextOrders, retsOf, availableIdx, collectRets, retOf, closeToday,
      closePrevBar, weights, denom, absSum, rawWeights, marketRet]
    simp (disch := norm_num) only [abs_of_nonneg, abs_of_nonpos]
    norm_num [List.filter, List.range_succ]
    rfl

/-- C8 counterexample: a portfolio of 100 shares marked at close 110 with
cash −50000 has equity −39000 ≤ 0, yet the rebalance step still computes
weights and issues both target orders instead of failing with
`ZeroEquityError`: the strategy consults no equity at all before ordering. -/
theorem c8_counterexample :
    equity (-50000) [100] [110] ≤ 0
  ∧ nextOrders [[100, 110], [100, 90]] =
      .ok [(0, some (-(1:ℚ)/2)), (1, some (1/2))] := by
  constructor
  · norm_num [equity]
  · norm_num [nextOrders, retsOf, availableIdx, collectRets, retOf, closeToday,
      closePrevBar, weights, denom, absSum, rawWeights, marketRet]
    simp (disch := norm_num) only [abs_of_nonneg, abs_of_nonpos]
    norm_num [List.filter, List.range_succ]
    rfl

/-- C8 amended: the code contains no equity guard: the only error a rebalance
step can signal is the division-by-zero raised on a zero prior close; in
particular `ZeroEquityError` is never produced, and the step's outcome does
not depend on portfolio equity (the order computation takes no portfolio
input). -/
theorem c8_no_zero_equity_error (feeds : List (List ℚ)) (e : SimError)
    (h : nextOrders feeds = .error e) : e = SimError.zeroDivision := by
  unfold nextOrders at h
  cases hr : retsOf feeds with
  | error e2 =>
    rw [hr] at h
    have : e2 = e := by simpa using h
    exact this ▸ collectRets_error _ e2 hr
  | ok rets =>
    rw [hr] at h
    simp at h

/-- Witness for C8: the one failing input kind there is, a zero prior close,
signals `zeroDivision`, not `zeroEquity`. -/
theorem c8_no_zero_equity_error_witness :
    nextOrders [[0, 5]] = .error SimError.zeroDivision
  ∧ SimError.zeroDivision = SimError.zeroDivision :=
  ⟨by norm_num [nextOrders, retsOf, availableIdx, collectRets, retOf,
      closeToday, closePrevBar],
    c8_no_zero_equity_error [[0, 5]] SimError.zeroDivision
      (by norm_num [nextOrders, retsOf, availableIdx, collectRets, retOf,
        closeToday, closePrevBar])⟩

/-- C9 counterexample: instrument 0 has prior close `0` (the CSV null value)
and instrument 1 is perfectly healthy, yet the whole day's computation
aborts with the division-by-zero error and no order is issued for anyone —
the code neither raises an `InvalidPriceError` nor excludes only the bad
instrument and continues. -/
theorem c9_counterexample :
    nextOrders [[0, 5], [100, 110]] = .error SimError.zeroDivision := by
  norm_num [nextOrders, retsOf, availableIdx, collectRets, retOf, closeToday,
    closePrevBar]

/-- C9 amended: a zero prior close makes the return computation raise the
uncaught `ZeroDivisionError`, aborting the rets loop (and with it the run);
a zero current close with nonzero prior close raises nothing and keeps the
instrument in the computation with return `-1`. No `InvalidPriceError` and
no per-instrument exclusion exist. -/
theorem c9_zero_price_behavior :
    (∀ (pre : List ℚ) (c0 : ℚ),
      retOf (pre ++ [0, c0]) = .error SimError.zeroDivision)
  ∧ (∀ (pre : List ℚ) (c1 : ℚ), c1 ≠ 0 →
      retOf (pre ++ [c1, 0]) = .ok (-1)) := by
  constructor
  · intro pre c0
    simp [retOf, closeToday_append, closePrevBar_append]
  · intro pre c1 h
    simp only [retOf, closeToday_append, closePrevBar_append]
    rw [if_neg h, zero_sub, neg_div, div_self h]

/-- Witness for C9 at concrete two-bar feeds. -/
theorem c9_zero_price_behavior_witness :
    retOf ([] ++ [(0:ℚ), 7]) = .error SimError.zeroDivision
  ∧ retOf ([] ++ [(4:ℚ), 0]) = .ok (-1) :=
  ⟨c9_zero_price_behavior.1 [] 7,
    c9_zero_price_behavior.2 [] 4 (by norm_num)⟩

/-- C10: the weight computation is translation-invariant in returns: adding
the same constant to every eligible return leaves every weight unchanged,
because the deviations from the mean are unchanged. -/
theorem c10_translation_invariant (rets : List ℚ) (c : ℚ)
    (hd : denom rets ≠ 0) :
    weights (rets.map (fun r => r + c)) = weights rets := by
  have hne := ne_nil_of_denom_ne_zero hd
  have hraw := rawWeights_shift rets c hne
  have hden : denom (rets.map (fun r => r + c)) = denom rets := by
    unfold denom
    rw [hraw]
  rw [weights, weights, hraw, hden]

/-- Witness for C10: shifting the example returns by 1 keeps the weights. -/
theorem c10_translation_invariant_witness :
    weights ([1/10, -1/10].map (fun r => r + 1)) = weights [1/10, -1/10] :=
  c10_translation_invariant [1/10, -1/10] 1 (by rw [denom_two_val]; norm_num)

end CrossSectionalMR
